import Mathlib

/-!
# Verification of the scratchfuscator control-flow-flattening (CFF) pass

Shallow embedding of the CFF compiler pass of `src/transforms/cff.ts`.
Scratch blocks are modelled by their denotations: linear statement blocks
become `Act`, boolean condition reporters become `Cond`, numeric input
expressions become their rational value.  Scratch lists (1-based, with
out-of-range reads returning a default and out-of-range writes/deletes
being no-ops) are modelled by `List` together with the primitives below.
-/

namespace Scratchfuscator

/-! ## Scratch list primitives

Scratch list operations are 1-based.  `item # of` returns 0 when the value
is absent; `item i of` returns the empty value out of range; `replace` and
`delete` out of range are no-ops. -/

/-- Scratch `item # of x in l`: 1-based index of the first occurrence, 0 if absent. -/
def itemNumOf [DecidableEq α] : List α → α → Nat
  | [], _ => 0
  | a :: l, x =>
    if a = x then 1
    else if itemNumOf l x = 0 then 0 else itemNumOf l x + 1

/-- Scratch `item i of l` (1-based); returns `dflt` when out of range. -/
def itemOf (dflt : α) (l : List α) (i : Nat) : α :=
  if i = 0 then dflt else l.getD (i - 1) dflt

/-- Scratch `replace item i of l with v` (1-based); no-op when out of range. -/
def replaceItem (l : List α) (i : Nat) (v : α) : List α :=
  if i = 0 then l else l.set (i - 1) v

/-- Scratch `delete i of l` (1-based); no-op when out of range. -/
def deleteItem (l : List α) (i : Nat) : List α :=
  if i = 0 then l else l.eraseIdx (i - 1)

/-- The universal exit sentinel: PC value 0 means "thread finished" (cff.ts: EXIT_PC). -/
def EXIT_PC : Int := 0

/-! ## Denotations of Scratch blocks appearing in state bodies -/

/-- Denotation of a linear (non-control) statement block. -/
inductive Act where
  | setVar (name : String) (v : Int)
  | changeVar (name : String) (v : Int)
deriving DecidableEq, Repr

/-- Denotation of a boolean condition reporter block. -/
inductive Cond where
  | varGt (name : String) (c : Int)
deriving DecidableEq, Repr

/-- Variable environment: association list, first binding wins. -/
def getVar (env : List (String × Int)) (n : String) : Int :=
  (env.lookup n).getD 0

/-- Update the first binding of `n`, or append a new one. -/
def setVarE : List (String × Int) → String → Int → List (String × Int)
  | [], n, v => [(n, v)]
  | (m, w) :: rest, n, v =>
    if m = n then (n, v) :: rest else (m, w) :: setVarE rest n v

def Act.run : Act → List (String × Int) → List (String × Int)
  | .setVar n v, env => setVarE env n v
  | .changeVar n v, env => setVarE env n (getVar env n + v)

def Cond.eval : Cond → List (String × Int) → Bool
  | .varGt n c, env => decide (getVar env n > c)

/-! ## The CFG state record (cff.ts: interface CFGState)

Block-id fields of the source are replaced by the denotations of the blocks
they reference.  The wait / for-each variants are outside the scope of the
claims and are omitted from the embedding. -/

structure BranchInfo where
  cond : Cond
  truePc : Int
  falsePc : Int
deriving DecidableEq, Repr

structure RepeatInitInfo where
  /-- Value of the TIMES input expression (countExprBlockId). -/
  count : Rat
  loopStaticId : Nat
deriving DecidableEq, Repr

structure RepeatCheckInfo where
  loopStaticId : Nat
  bodyPc : Int
  exitPc : Int
deriving DecidableEq, Repr

structure CFGState where
  pc : Int
  bodyBlockIds : List Act
  nextPc : Int
  branch : Option BranchInfo := none
  repeatInit : Option RepeatInitInfo := none
  repeatCheck : Option RepeatCheckInfo := none
  isTerminal : Bool := false
  isDead : Bool := false
deriving DecidableEq, Repr, Inhabited

/-! ## Wait-signal receiver (cff.ts: buildWaitHandler, lines 501-569)

The generated receiver script is
`if (length of waitQueue > 0): save item 1; delete 1; if (length > 0)
re-broadcast; handleWait(saved)`. -/

structure ReceiverResult where
  /-- waitQueue contents after the activation. -/
  queue : List Int
  /-- The token passed to handleWait, if any. -/
  handled : Option Int
  /-- Whether the signal broadcast was re-emitted. -/
  rebroadcast : Bool
deriving DecidableEq, Repr

/-- One activation of the `when I receive [waitBroadcast]` receiver. -/
def receiverActivation (queue : List Int) : ReceiverResult :=
  if queue.length > 0 then
    let savedTid := itemOf 0 queue 1
    let q1 := deleteItem queue 1
    { queue := q1, handled := some savedTid, rebroadcast := decide (q1.length > 0) }
  else
    { queue := queue, handled := none, rebroadcast := false }

/-! ## allocPc retry loop (cff.ts: allocPc lines 683-688, randomHugeInt 2030-2036)

The random draws are modelled by an explicit finite stream; the retry loop
skips draws that are zero or already used.  `none` means the draw budget ran
out (the source loops until success; any terminating run of the source loop
corresponds to a finite prefix of draws). -/

/-- Retry loop of allocPc: first draw that is neither used nor the exit sentinel. -/
def allocRetry : List Int → List Int → Option (Int × List Int)
  | [], _ => none
  | d :: rest, used =>
    if d ∈ used ∨ d = EXIT_PC then allocRetry rest used else some (d, rest)

/-- A sequence of `n` allocations threading the used set, as performed during
one script's decomposition (real states, then dead states). -/
def allocSeq : Nat → List Int → List Int → Option (List Int × List Int)
  | 0, draws, _ => some ([], draws)
  | n + 1, draws, used =>
    match allocRetry draws used with
    | none => none
    | some (pc, rest) =>
      match allocSeq n rest (used ++ [pc]) with
      | none => none
      | some (pcs, rest2) => some (pc :: pcs, rest2)

/-! ## PC-transition obfuscation (cff.ts: buildObfuscatedPcExpr, lines 1903-1944)

The emitted arithmetic blocks are modelled by an expression tree over the
cached-PC variable; Scratch arithmetic on the PC domain is exact, modelled
over ℚ. -/

inductive PcExpr where
  | lit (v : Rat)
  | cached
  | add (a b : PcExpr)
  | sub (a b : PcExpr)
  | mul (a b : PcExpr)
  | div (a b : PcExpr)
deriving DecidableEq, Repr

def PcExpr.eval (cachedVal : Rat) : PcExpr → Rat
  | .lit v => v
  | .cached => cachedVal
  | .add a b => a.eval cachedVal + b.eval cachedVal
  | .sub a b => a.eval cachedVal - b.eval cachedVal
  | .mul a b => a.eval cachedVal * b.eval cachedVal
  | .div a b => a.eval cachedVal / b.eval cachedVal

/-- The expression emitted for a transition from `currentPc` to `nextPc`.
`kind` is drawn by `randomInt(1, 4)`; `scramble` by `randomInt(1000, 99999)`.
The default case mirrors the source's unreachable fallback (a literal). -/
def buildObfuscatedPcExpr (kind : Nat) (scramble : Int) (currentPc nextPc : Int) : PcExpr :=
  let offset : Int := nextPc - currentPc
  match kind with
  | 1 => .add .cached (.lit (offset : Int))
  | 2 => .sub .cached (.lit ((-offset : Int) : Rat))
  | 3 => .sub (.add .cached (.lit (scramble : Int))) (.lit ((scramble - offset : Int) : Rat))
  | 4 => .div (.add (.mul .cached (.lit 2)) (.lit ((offset * 2 : Int) : Rat))) (.lit 2)
  | _ => .lit (nextPc : Int)

/-! ## Thread registry (cff.ts: buildRunFunction lines 1181-1281,
terminal cleanup lines 1677-1700)

Four-to-six parallel lists per target; `waitFlags` / `bcastPendingMsg` exist
only when the target uses wait infrastructure (`hasWait`). -/

structure Registry where
  pcIds : List Int
  pcVals : List Int
  waitFlags : List Int
  bcastPendingMsg : List String
deriving DecidableEq, Repr

def emptyRegistry : Registry := ⟨[], [], [], []⟩

/-- run_N prologue: append one entry to each parallel list. -/
def registerThread (hasWait : Bool) (tid entryPc : Int) (r : Registry) : Registry :=
  { pcIds := r.pcIds ++ [tid]
    pcVals := r.pcVals ++ [entryPc]
    waitFlags := if hasWait then r.waitFlags ++ [0] else r.waitFlags
    bcastPendingMsg := if hasWait then r.bcastPendingMsg ++ [""] else r.bcastPendingMsg }

/-- Mid-execution updates: every one is a replace at the row index resolved
from the thread token (writePcToList / waitStart / broadcastWaitStart). -/
inductive MidOp where
  | setPc (pc : Int)
  | setFlag (v : Int)
  | setMsg (m : String)
deriving DecidableEq, Repr

def applyMidOp (tid : Int) (r : Registry) : MidOp → Registry
  | .setPc pc =>
    { r with pcVals := replaceItem r.pcVals (itemNumOf r.pcIds tid) pc }
  | .setFlag v =>
    { r with waitFlags := replaceItem r.waitFlags (itemNumOf r.pcIds tid) v }
  | .setMsg m =>
    { r with bcastPendingMsg := replaceItem r.bcastPendingMsg (itemNumOf r.pcIds tid) m }

/-- Cleanup path (run_N epilogue and terminal states): the row index is
captured once (into the baseIndex variable) and one entry is deleted from
each parallel list at that index. -/
def cleanupThread (hasWait : Bool) (tid : Int) (r : Registry) : Registry :=
  let idx := itemNumOf r.pcIds tid
  { pcIds := deleteItem r.pcIds idx
    pcVals := deleteItem r.pcVals idx
    waitFlags := if hasWait then deleteItem r.waitFlags idx else r.waitFlags
    bcastPendingMsg := if hasWait then deleteItem r.bcastPendingMsg idx else r.bcastPendingMsg }

/-- The parallel-sequence length invariant. -/
def Registry.eqLen (hasWait : Bool) (r : Registry) : Prop :=
  r.pcVals.length = r.pcIds.length ∧
  (hasWait = true → r.waitFlags.length = r.pcIds.length ∧
    r.bcastPendingMsg.length = r.pcIds.length)

instance (hasWait : Bool) (r : Registry) : Decidable (r.eqLen hasWait) := by
  unfold Registry.eqLen; infer_instance

/-- One full sequential thread lifecycle: register, run some length-preserving
updates, then clean up. -/
def runLifecycle (hasWait : Bool) (r : Registry) : Int × Int × List MidOp → Registry
  | (tid, entry, ops) =>
    cleanupThread hasWait tid (ops.foldl (applyMidOp tid) (registerThread hasWait tid entry r))

def runLifecycles (hasWait : Bool) (runs : List (Int × Int × List MidOp)) (r : Registry) :
    Registry :=
  runs.foldl (runLifecycle hasWait) r

/-! ## Green-flag cleanup hat and hat rewrite
(cff.ts: createTargetLists 284-336, buildGreenFlagCleanup 340-372,
flattenHatScript 601-609) -/

/-- The CFF bookkeeping lists of one target. -/
inductive CFFList where
  | pcIds | pcVals | counterKeys | counterVals
  | waitFlags | bcastPendingMsg | waitQueue
deriving DecidableEq, Repr

/-- Broadcast channels created by createTargetLists. -/
inductive BroadcastId where
  | start | waitSignal
deriving DecidableEq, Repr

/-- The lists createTargetLists creates: the four core lists, plus the three
wait lists when the target uses wait infrastructure. -/
def allCFFLists (hasWait : Bool) : List CFFList :=
  [.pcIds, .pcVals, .counterKeys, .counterVals] ++
    (if hasWait then [.waitFlags, .bcastPendingMsg, .waitQueue] else [])

inductive CleanupOp where
  | deleteAllOf (l : CFFList)
  | broadcast (b : BroadcastId)
deriving DecidableEq, Repr

inductive HatKind where
  | whenFlagClicked
  | whenBroadcastReceived (b : BroadcastId)
  | otherHat
deriving DecidableEq, Repr

structure CleanupScript where
  hat : HatKind
  chain : List CleanupOp
deriving DecidableEq, Repr

/-- buildGreenFlagCleanup: a when-flag-clicked script that clears every
bookkeeping list and then broadcasts the start signal. -/
def buildGreenFlagCleanup (hasWait : Bool) : CleanupScript :=
  let clears : List CleanupOp :=
    [.deleteAllOf .pcIds, .deleteAllOf .pcVals,
     .deleteAllOf .counterKeys, .deleteAllOf .counterVals] ++
      (if hasWait then
        [.deleteAllOf .waitFlags, .deleteAllOf .bcastPendingMsg, .deleteAllOf .waitQueue]
      else [])
  { hat := .whenFlagClicked, chain := clears ++ [.broadcast .start] }

/-- flattenHatScript's hat rewrite: green-flag hats of flattened scripts are
converted to receivers of the start broadcast; other hats keep their opcode. -/
def rewriteHatOpcode : HatKind → HatKind
  | .whenFlagClicked => .whenBroadcastReceived .start
  | h => h

/-! ## BST dispatch (cff.ts: buildStepFunction line 1325, buildBSTNode 1354-1395)

`buildBSTNode` works on a segment `[lo, hi]` of the PC-sorted state array; a
segment is embedded here as the sublist itself.  For `n = hi - lo + 1 ≥ 2`
the source takes `mid = ⌊(lo + hi) / 2⌋` and pivots on `sorted[mid + 1].pc`,
i.e. the left subtree gets the first `⌈n / 2⌉` states and the pivot is the
minimum PC of the upper half.  Every comparison is a strict less-than on the
cached PC; leaves hold the state body. -/

inductive DispatchTree where
  | leaf (s : CFGState)
  | node (pivot : Int) (left right : DispatchTree)
deriving DecidableEq, Repr

def buildBSTNode (l : List CFGState) : DispatchTree :=
  if h : l.length ≤ 1 then
    .leaf l.headI
  else
    -- the pivot index: for the segment [lo, hi], mid = ⌊(lo + hi) / 2⌋ and
    -- the pivot is sorted[mid + 1].pc, so the left subtree holds the first
    -- ⌈n / 2⌉ = (n + 1) / 2 states and the pivot is the upper half's minimum
    .node ((l.drop ((l.length + 1) / 2)).headI).pc
      (buildBSTNode (l.take ((l.length + 1) / 2)))
      (buildBSTNode (l.drop ((l.length + 1) / 2)))
termination_by l.length
decreasing_by
  · simp only [List.length_take]; omega
  · simp only [List.length_drop]; omega

/-- States sorted by PC (cff.ts line 1325: `[...states].sort((a, b) => a.pc - b.pc)`). -/
def sortByPc (states : List CFGState) : List CFGState :=
  states.mergeSort (fun a b => decide (a.pc ≤ b.pc))

/-- The dispatch tree the code generator emits for a state set. -/
def dispatchTreeOf (states : List CFGState) : DispatchTree :=
  buildBSTNode (sortByPc states)

/-- Querying the dispatch tree with a PC value: returns the reached leaf and
the number of less-than comparisons performed. -/
def bstQuery : DispatchTree → Int → CFGState × Nat
  | .leaf s, _ => (s, 0)
  | .node pivot left right, q =>
    if q < pivot then
      let r := bstQuery left q
      (r.1, r.2 + 1)
    else
      let r := bstQuery right q
      (r.1, r.2 + 1)

/-! ## CFG decomposition (cff.ts: decomposeToCFG 675-1092)

The decomposer is embedded over an AST of the statement chains it handles:
`plain` covers every linear (non-control) opcode, the other constructors
cover the control opcodes relevant to the claims.  `allocPc` is modelled by
an abstract supply `σ : Nat → Int` indexed by the number of allocations so
far; theorems that need its post-condition (distinct, nonzero) assume `σ`
injective and nonzero, which is exactly what the retry loop guarantees
(see `allocRetry` / `allocSeq` above).  Loop static uids (`uid(16)`) are
modelled by a second counter. -/

inductive Blk where
  /-- Any linear statement block (no control-flow opcode). -/
  | plain (act : Act)
  /-- control_if with its CONDITION and SUBSTACK. -/
  | ifOnly (cond : Cond) (sub : List Blk)
  /-- control_if_else with CONDITION, SUBSTACK, SUBSTACK2. -/
  | ifElse (cond : Cond) (sub1 sub2 : List Blk)
  /-- control_forever with its SUBSTACK. -/
  | forever (sub : List Blk)
  /-- control_repeat with the value of its TIMES input and its SUBSTACK. -/
  | repeatN (times : Rat) (sub : List Blk)

mutual
def Blk.size : Blk → Nat
  | .plain _ => 1
  | .ifOnly _ sub => 2 + Blk.sizeList sub
  | .ifElse _ s1 s2 => 2 + Blk.sizeList s1 + Blk.sizeList s2
  | .forever sub => 2 + Blk.sizeList sub
  | .repeatN _ sub => 2 + Blk.sizeList sub

def Blk.sizeList : List Blk → Nat
  | [] => 0
  | b :: l => Blk.size b + Blk.sizeList l
end

/-- Termination measure fact: every block has positive size. -/
def Blk.size_pos : ∀ b : Blk, 1 ≤ b.size := by
  intro b
  cases b <;> simp [Blk.size] <;> omega

/-- Termination measure fact: `Blk.sizeList` distributes over append. -/
def Blk.sizeList_append : ∀ l1 l2 : List Blk,
    Blk.sizeList (l1 ++ l2) = Blk.sizeList l1 + Blk.sizeList l2 := by
  intro l1 l2
  induction l1 with
  | nil => simp [Blk.sizeList]
  | cons b l ih => simp [Blk.sizeList, ih]; omega

/-- Termination measure fact: `Blk.sizeList` is invariant under reversal. -/
def Blk.sizeList_reverse : ∀ l : List Blk,
    Blk.sizeList l.reverse = Blk.sizeList l := by
  intro l
  induction l with
  | nil => rfl
  | cons b l ih =>
    simp [List.reverse_cons, Blk.sizeList_append, Blk.sizeList, ih]; omega

/-- Mutable context threaded through one decomposition call: the allocation
counter (one per `allocPc` call), the loop-uid counter, the `states` array
and the `yieldRedirects` map (as an association list in insertion order). -/
structure DecompState where
  k : Nat
  uidK : Nat
  states : List CFGState
  yieldRedirects : List (Int × Int)
deriving DecidableEq, Repr

/-- allocPc: draw the next PC from the supply (post-condition of the retry
loop; see `allocRetry`). -/
def allocPc (σ : Nat → Int) (st : DecompState) : Int × DecompState :=
  (σ st.k, { st with k := st.k + 1 })

def pushState (s : CFGState) (st : DecompState) : DecompState :=
  { st with states := st.states ++ [s] }

def addRedirect (e : Int × Int) (st : DecompState) : DecompState :=
  { st with yieldRedirects := st.yieldRedirects ++ [e] }

def freshUid (st : DecompState) : Nat × DecompState :=
  (st.uidK, { st with uidK := st.uidK + 1 })

/-- A maximal linear run becomes one state whose body is the run and whose
`nextPc` is the continuation computed so far (cff.ts lines 721-733).
An empty run produces nothing and keeps the continuation. -/
def flushLinear (σ : Nat → Int) (cont : Int) (pending : List Act) (st : DecompState) :
    Int × DecompState :=
  match pending with
  | [] => (cont, st)
  | _ =>
    let (pc, st1) := allocPc σ st
    (pc, pushState { pc := pc, bodyBlockIds := pending, nextPc := cont } st1)

mutual
/-- decomposeChain (cff.ts 690-743): partition the chain into maximal linear
runs and single control segments, then process the segments right-to-left
threading the `continuationPc` accumulator.  Here the chain is walked from
the right directly (`goSegs` on the reversed list) while collecting the
pending linear run; this fuses the source's segment-partition pass with its
right-to-left for-loop and performs the identical allocations and state
pushes in the identical order. -/
def decomposeChain (σ : Nat → Int) (blks : List Blk) (cont : Int) (st : DecompState) :
    Int × DecompState :=
  goSegs σ blks.reverse cont [] st
termination_by Blk.sizeList blks * 2 + 2
decreasing_by
  simp only [Blk.sizeList_reverse]; omega

/-- Right-to-left traversal; `pending` holds the linear run collected so far
(in source order — these blocks sit immediately to the right of the current
position). -/
def goSegs (σ : Nat → Int) : List Blk → Int → List Act → DecompState → Int × DecompState
  | [], cont, pending, st => flushLinear σ cont pending st
  | .plain a :: rest, cont, pending, st => goSegs σ rest cont (a :: pending) st
  | b :: rest, cont, pending, st =>
    let r1 := flushLinear σ cont pending st
    let r2 := decomposeControlBlock σ b r1.1 r1.2
    goSegs σ rest r2.1 [] r2.2
termination_by l _ _ _ => Blk.sizeList l * 2 + 1
decreasing_by
  all_goals simp only [Blk.sizeList, Blk.size]
  all_goals first
  | omega
  | (have h := Blk.size_pos b; omega)

/-- decomposeControlBlock (cff.ts 745-1084), restricted to the opcodes in
`Blk`.  The `plain` case mirrors the source's default case (single one-state
passthrough); it is unreachable from `goSegs`, which treats plain blocks as
linear. -/
def decomposeControlBlock (σ : Nat → Int) : Blk → Int → DecompState → Int × DecompState
  | .plain a, cont, st =>
    let (pc, st1) := allocPc σ st
    (pc, pushState { pc := pc, bodyBlockIds := [a], nextPc := cont } st1)
  | .ifOnly c sub, cont, st =>
    let (branchPc, st1) := allocPc σ st
    let r := decomposeChain σ sub cont st1
    (branchPc, pushState
      { pc := branchPc, bodyBlockIds := [], nextPc := cont,
        branch := some ⟨c, r.1, cont⟩ } r.2)
  | .ifElse c s1 s2, cont, st =>
    let (branchPc, st1) := allocPc σ st
    let r1 := decomposeChain σ s1 cont st1
    let r2 := decomposeChain σ s2 cont r1.2
    (branchPc, pushState
      { pc := branchPc, bodyBlockIds := [], nextPc := cont,
        branch := some ⟨c, r1.1, r2.1⟩ } r2.2)
  -- a forever loop never returns to the surrounding continuation: the
  -- continuation argument is ignored (cff.ts 802-819)
  | .forever sub, _cont, st =>
    match sub with
    | [] =>
      let (loopPc, st1) := allocPc σ st
      (loopPc, addRedirect (loopPc, loopPc)
        (pushState { pc := loopPc, bodyBlockIds := [], nextPc := loopPc } st1))
    | b :: rest =>
      let (yieldRedirectPc, st1) := allocPc σ st
      let r := decomposeChain σ (b :: rest) yieldRedirectPc st1
      (r.1, addRedirect (yieldRedirectPc, r.1) r.2)
  | .repeatN times sub, cont, st =>
    let (loopStaticId, st1) := freshUid st
    let (initPc, st2) := allocPc σ st1
    let (checkPc, st3) := allocPc σ st2
    let (yieldRedirectPc, st4) := allocPc σ st3
    let st5 := addRedirect (yieldRedirectPc, checkPc) st4
    let r := decomposeChain σ sub yieldRedirectPc st5
    (initPc, pushState
      { pc := checkPc, bodyBlockIds := [], nextPc := cont,
        repeatCheck := some ⟨loopStaticId, r.1, cont⟩ }
      (pushState
        { pc := initPc, bodyBlockIds := [], nextPc := checkPc,
          repeatInit := some ⟨times, loopStaticId⟩ } r.2))
termination_by b _ _ => Blk.size b * 2
decreasing_by
  all_goals simp only [Blk.sizeList, Blk.size]
  all_goals omega
end

/-! ## Dead state generation (cff.ts: generateDeadStates 1096-1127) -/

/-- A dead (decoy) state: a decoy body chain and a random nonzero `nextPc`
that is registered in no dispatch tree. -/
def mkDeadState (pc : Int) (body : List Act) (nextPc : Int) : CFGState :=
  { pc := pc, bodyBlockIds := body, nextPc := nextPc, isDead := true }

/-! ## Generated-code semantics (cff.ts: buildStateBody 1399-1880,
buildStepFunction 1293-1350, buildRunFunction 1181-1281)

One thread's view of the generated machine: the PC cell (its row of
`pcVals`), the user variable environment, and the repeat counter KV store
(`counterKeys` / `counterVals`).  Counter keys are
`join(threadId, join(" ", loopStaticId))`, an injective pairing embedded as
the pair itself. -/

structure Config where
  pc : Int
  env : List (String × Int)
  counterKeys : List (Int × Nat)
  counterVals : List Int
deriving DecidableEq, Repr

/-- resolveAndWritePc (cff.ts 1948-1976): resolve the yield-redirect map,
then decide yield vs intra-tick continuation.  Returns the resolved PC and
`shouldYield`. -/
def resolvePc (rs : List (Int × Int)) (pc : Int) : Int × Bool :=
  match (rs.find? (fun e => decide (e.1 = pc))).map (fun e => e.2) with
  | some r => (r, true)
  | none => (pc, decide (pc = EXIT_PC))

/-- Execute one state's emitted body (buildStateBody).  Returns the new
configuration and the final value of the keepGoing variable (`true` = chain
into the next state within this tick, `false` = yield). -/
def execState (rs : List (Int × Int)) (tid : Int) (s : CFGState) (c : Config) :
    Config × Bool :=
  match s.branch with
  | some b =>
    let t := resolvePc rs b.truePc
    let f := resolvePc rs b.falsePc
    if b.cond.eval c.env then ({ c with pc := t.1 }, !t.2)
    else ({ c with pc := f.1 }, !f.2)
  | none =>
  match s.repeatInit with
  | some ri =>
    let key := (tid, ri.loopStaticId)
    let n := resolvePc rs s.nextPc
    ({ c with counterKeys := c.counterKeys ++ [key],
              counterVals := c.counterVals ++ [⌈ri.count⌉],
              pc := n.1 }, !n.2)
  | none =>
  match s.repeatCheck with
  | some rc =>
    let key := (tid, rc.loopStaticId)
    let v := itemOf 0 c.counterVals (itemNumOf c.counterKeys key)
    if v > 0 then
      -- decrement: the replace index and the read use independent fresh
      -- lookups (cff.ts 1474-1494)
      let idxRep := itemNumOf c.counterKeys key
      let vRead := itemOf 0 c.counterVals (itemNumOf c.counterKeys key)
      let n := resolvePc rs rc.bodyPc
      ({ c with counterVals := replaceItem c.counterVals idxRep (vRead - 1),
                pc := n.1 }, !n.2)
    else
      -- loop exit: capture the index once, then delete key and value
      -- (cff.ts 1504-1525)
      let idxDel := itemNumOf c.counterKeys key
      let n := resolvePc rs rc.exitPc
      ({ c with counterKeys := deleteItem c.counterKeys idxDel,
                counterVals := deleteItem c.counterVals idxDel,
                pc := n.1 }, !n.2)
  | none =>
  if s.isTerminal then
    -- registry cleanup is modelled in the Registry section; keepGoing := 0
    (c, false)
  else
    let env := s.bodyBlockIds.foldl (fun e a => a.run e) c.env
    let n := resolvePc rs s.nextPc
    -- dead states always yield (cff.ts 1864-1867)
    let kg := if s.isDead && !n.2 then false else !n.2
    ({ c with env := env, pc := n.1 }, kg)

/-- Dispatch to the state whose PC equals the cached PC.  The emitted code
does this with the BST of `dispatchTreeOf`; by the dispatch-tree theorems the
query reaches exactly the leaf of the matching state. -/
def findState (states : List CFGState) (pc : Int) : Option CFGState :=
  states.find? (fun s => decide (s.pc = pc))

/-- One warp invocation of step_N (cff.ts 1293-1350): dispatch and execute
states while keepGoing = 1.  `fuel` bounds the intra-tick chain length. -/
def stepTick (states : List CFGState) (rs : List (Int × Int)) (tid : Int) :
    Nat → Config → Config
  | 0, c => c
  | fuel + 1, c =>
    match findState states c.pc with
    | none => c
    | some s =>
      let r := execState rs tid s c
      if r.2 then stepTick states rs tid fuel r.1 else r.1

/-- The outer run_N loop (cff.ts 1181-1281): call step_N once per tick until
the thread's PC equals the exit sentinel. -/
def runThread (states : List CFGState) (rs : List (Int × Int)) (tid : Int) :
    Nat → Nat → Config → Config
  | 0, _, c => c
  | ticks + 1, innerFuel, c =>
    if c.pc = EXIT_PC then c
    else runThread states rs tid ticks innerFuel (stepTick states rs tid innerFuel c)

/-- The decomposition context right before a repeat loop's body is
decomposed: the loop uid and three PCs (init, check, yield-redirect) are
drawn and the redirect (yieldRedirectPc ↦ checkPc) is recorded
(cff.ts 827-841). -/
def repeatBodyCtx (σ : Nat → Int) (st : DecompState) : DecompState :=
  { st with
    uidK := st.uidK + 1
    k := st.k + 3
    yieldRedirects := st.yieldRedirects ++ [(σ (st.k + 2), σ (st.k + 1))] }

/-! ## Concrete example inputs used by the claims -/

/-- PC supply for concrete examples: the i-th allocation yields PC `i + 1`
(injective and nonzero, the post-condition of the allocPc retry loop). -/
def exampleSupply : Nat → Int := fun n => (n : Int) + 1

/-- The chain `if (x > 0) { set y to 1 } else { set y to 2 }`. -/
def exampleIfElse : List Blk :=
  [.ifElse (.varGt "x" 0) [.plain (.setVar "y" 1)] [.plain (.setVar "y" 2)]]

/-- The chain `repeat 3 { change counter by 1 }`. -/
def exampleRepeat : List Blk :=
  [.repeatN 3 [.plain (.changeVar "counter" 1)]]

/-- The states produced for `exampleRepeat` under `exampleSupply`, in push
order: the body state, then the init state, then the check state. -/
def exampleRepeatStates : List CFGState :=
  [ { pc := 4, bodyBlockIds := [.changeVar "counter" 1], nextPc := 3 },
    { pc := 1, bodyBlockIds := [], nextPc := 2, repeatInit := some ⟨3, 0⟩ },
    { pc := 2, bodyBlockIds := [], nextPc := 0, repeatCheck := some ⟨0, 4, 0⟩ } ]

/-! # Claim theorems -/

/-- C4: every PC-transition expression variant (cached + offset,
cached − (−offset), the scramble add-then-subtract form, the
multiply-then-divide form, and the fallback literal), evaluated with the
cached-PC variable equal to the PC of the state currently executing, yields
exactly the destination PC, for every current/destination PC pair and every
scramble value. -/
theorem obfuscatedPcExpr_exact (kind : Nat) (scramble : Int) (currentPc nextPc : Int) :
    (buildObfuscatedPcExpr kind scramble currentPc nextPc).eval (currentPc : Rat) =
      (nextPc : Rat) := by
  rcases kind with _ | _ | _ | _ | _ | n <;>
    simp only [buildObfuscatedPcExpr, PcExpr.eval] <;> push_cast <;> ring

/-- C5 helper: the allocPc retry loop only ever returns a draw that is
neither already used nor the exit sentinel. -/
theorem allocRetry_fresh :
    ∀ (draws used : List Int) (pc : Int) (rest : List Int),
      allocRetry draws used = some (pc, rest) → pc ∉ used ∧ pc ≠ EXIT_PC := by
  intro draws
  induction draws with
  | nil => intro used pc rest h; simp [allocRetry] at h
  | cons d ds ih =>
    intro used pc rest h
    by_cases hd : d ∈ used ∨ d = EXIT_PC
    · rw [allocRetry, if_pos hd] at h
      exact ih used pc rest h
    · rw [allocRetry, if_neg hd] at h
      push_neg at hd
      cases h
      exact hd

/-- C5: every PC allocated during one script's decomposition is nonzero and
distinct from every PC previously allocated in that script: the allocation
retry loop skips the draw when it is zero or a duplicate, so any successful
sequence of allocations yields a list with no exit sentinel, no duplicates,
and no clash with the initially used set. -/
theorem allocSeq_no_zero_no_dup :
    ∀ (n : Nat) (draws used : List Int) (pcs rest : List Int),
      allocSeq n draws used = some (pcs, rest) →
      EXIT_PC ∉ pcs ∧ pcs.Nodup ∧ ∀ p ∈ pcs, p ∉ used := by
  intro n
  induction n with
  | zero =>
    intro draws used pcs rest h
    simp [allocSeq] at h
    simp [h.1]
  | succ m ih =>
    intro draws used pcs rest h
    rw [allocSeq] at h
    rcases h1 : allocRetry draws used with _ | ⟨pc, rest1⟩ <;> rw [h1] at h <;> dsimp only at h
    · simp at h
    rcases h2 : allocSeq m rest1 (used ++ [pc]) with _ | ⟨pcs2, rest2⟩ <;> rw [h2] at h <;>
      dsimp only at h
    · simp at h
    simp only [Option.some.injEq, Prod.mk.injEq] at h
    obtain ⟨hpcs, -⟩ := h
    obtain ⟨hused, hzero⟩ := allocRetry_fresh draws used pc rest1 h1
    obtain ⟨hz2, hnd2, hfresh2⟩ := ih rest1 (used ++ [pc]) pcs2 rest2 h2
    subst hpcs
    refine ⟨?_, ?_, ?_⟩
    · intro hmem
      rcases List.mem_cons.mp hmem with h | h
      · exact hzero h.symm
      · exact hz2 h
    · refine List.nodup_cons.mpr ⟨?_, hnd2⟩
      intro hmem
      have := hfresh2 pc hmem
      simp at this
    · intro p hp
      rcases List.mem_cons.mp hp with h | h
      · subst h; exact hused
      · intro hpu
        exact hfresh2 p h (List.mem_append_left _ hpu)

/-- C5 witness: a concrete successful allocation sequence (the draws 0 and
the duplicate 5 are retried past). -/
theorem allocSeq_no_zero_no_dup_witness :
    EXIT_PC ∉ ([5, 7, 9] : List Int) ∧ List.Nodup ([5, 7, 9] : List Int) ∧
      ∀ p ∈ ([5, 7, 9] : List Int), p ∉ ([] : List Int) :=
  allocSeq_no_zero_no_dup 3 [0, 5, 5, 7, 9] [] [5, 7, 9] [] (by decide)

/-- C7: one activation of the wait-signal receiver removes exactly the first
token from the pending queue, hands exactly that token to the wait handler,
and re-emits the signal broadcast if and only if the queue is still
non-empty after the removal; on an empty queue nothing changes (the tail of
`[]` is `[]`, no token is handled, no re-broadcast). -/
theorem receiver_pops_exactly_one (q : List Int) :
    receiverActivation q =
      { queue := q.tail, handled := q.head?, rebroadcast := decide (q.tail ≠ []) } := by
  cases q with
  | nil => simp [receiverActivation]
  | cons a t =>
    simp only [receiverActivation, itemOf, deleteItem, List.length_cons]
    simp [List.eraseIdx_cons_zero, List.length_pos_iff_ne_nil]

/-- C9: a dead (decoy) state's emitted body always leaves the keep-going
variable at 0, whatever its random `nextPc` resolves to, so the inner
dispatcher yields right after the decoy body: one warp invocation entered at
a dead state's PC executes exactly that one state and never chains
intra-tick into another state. -/
theorem dead_state_always_yields (rs : List (Int × Int)) (tid pc nextPc : Int)
    (body : List Act) (c : Config) :
    (execState rs tid (mkDeadState pc body nextPc) c).2 = false ∧
    ∀ (fuel : Nat) (env : List (String × Int)) (ck : List (Int × Nat)) (cv : List Int),
      stepTick [mkDeadState pc body nextPc] rs tid (fuel + 1) ⟨pc, env, ck, cv⟩ =
        (execState rs tid (mkDeadState pc body nextPc) ⟨pc, env, ck, cv⟩).1 := by
  constructor
  · simp only [execState, mkDeadState]
    cases h : (resolvePc rs nextPc).2 <;> simp
  · intro fuel env ck cv
    have hkg : (execState rs tid (mkDeadState pc body nextPc) ⟨pc, env, ck, cv⟩).2 = false := by
      simp only [execState, mkDeadState]
      cases h : (resolvePc rs nextPc).2 <;> simp
    simp only [mkDeadState] at hkg ⊢
    simp [stepTick, findState, hkg]

/-- C2: decomposing an if-else pushes exactly one branch state beyond the
substack decompositions; its truePc and falsePc are the entry PCs of the
decomposed true and false substacks, and decomposing an empty substack
returns the surrounding continuation unchanged (so an empty substack
defaults to the continuation).  Concretely, the chain
`if (x > 0) { set y to 1 } else { set y to 2 }` decomposes to exactly three
states: the two single-statement body states (both with nextPc = the exit
sentinel 0) and one branch state whose truePc and falsePc are their PCs. -/
theorem ifElse_one_branch_state (σ : Nat → Int) (c : Cond) (s1 s2 : List Blk)
    (cont : Int) (st : DecompState) :
    (decomposeControlBlock σ (.ifElse c s1 s2) cont st =
      (σ st.k,
        pushState
          { pc := σ st.k, bodyBlockIds := [], nextPc := cont,
            branch := some
              ⟨c, (decomposeChain σ s1 cont { st with k := st.k + 1 }).1,
                (decomposeChain σ s2 cont
                  (decomposeChain σ s1 cont { st with k := st.k + 1 }).2).1⟩ }
          (decomposeChain σ s2 cont
            (decomposeChain σ s1 cont { st with k := st.k + 1 }).2).2))
    ∧ (∀ (cont2 : Int) (st2 : DecompState), decomposeChain σ [] cont2 st2 = (cont2, st2))
    ∧ decomposeChain exampleSupply exampleIfElse 0 ⟨0, 0, [], []⟩ =
        (1, ⟨3, 0,
          [ { pc := 2, bodyBlockIds := [.setVar "y" 1], nextPc := 0 },
            { pc := 3, bodyBlockIds := [.setVar "y" 2], nextPc := 0 },
            { pc := 1, bodyBlockIds := [], nextPc := 0,
              branch := some ⟨.varGt "x" 0, 2, 3⟩ } ], []⟩) := by
  refine ⟨?_, ?_, ?_⟩
  · simp [decomposeControlBlock, allocPc]
  · intro cont2 st2
    simp [decomposeChain, goSegs, flushLinear]
  · simp [decomposeChain, goSegs, decomposeControlBlock, flushLinear, allocPc,
      pushState, addRedirect, freshUid, exampleIfElse, exampleSupply]

/-- C8: a forever loop is a true leaf of the surrounding continuation chain:
its decomposition is independent of the surrounding continuation (nothing on
the fallthrough path follows it).  With a non-empty body, the body is
decomposed with a fresh yield-redirect PC as its own continuation and the
yield-redirect map sends that PC to the body's entry PC (a pure cycle);
with an empty body, exactly one state is pushed, whose nextPc equals its own
PC, and the redirect maps that PC to itself. -/
theorem forever_pure_cycle (σ : Nat → Int) (sub : List Blk) (cont cont2 : Int)
    (st : DecompState) :
    (decomposeControlBlock σ (.forever sub) cont st =
      decomposeControlBlock σ (.forever sub) cont2 st)
    ∧ (∀ (b : Blk) (rest : List Blk),
        decomposeControlBlock σ (.forever (b :: rest)) cont st =
          ((decomposeChain σ (b :: rest) (σ st.k) { st with k := st.k + 1 }).1,
            addRedirect
              (σ st.k, (decomposeChain σ (b :: rest) (σ st.k) { st with k := st.k + 1 }).1)
              (decomposeChain σ (b :: rest) (σ st.k) { st with k := st.k + 1 }).2))
    ∧ decomposeControlBlock σ (.forever []) cont st =
        (σ st.k,
          addRedirect (σ st.k, σ st.k)
            (pushState { pc := σ st.k, bodyBlockIds := [], nextPc := σ st.k }
              { st with k := st.k + 1 })) := by
  refine ⟨?_, ?_, ?_⟩
  · cases sub <;> simp [decomposeControlBlock]
  · intro b rest
    simp [decomposeControlBlock, allocPc]
  · simp [decomposeControlBlock, allocPc]

/-- C3: decomposing `repeat N { body }` draws a fresh compile-time loop id
and pushes exactly two states beyond the body decomposition: an init state
that stores `⌈count⌉` under the loop-scoped key (thread token paired with
the loop id — `join(threadId, join(" ", loopStaticId))` in the source) and
advances to the check state, and a check state holding the body entry and
exit continuations.  The body is decomposed with a fresh yield-redirect PC
as its continuation, and the redirect map sends that PC back to the check
state.  At runtime (see `execState`) the check state compares the stored
counter > 0, decrements through an index lookup independent from the read
used for the comparison, and on exit deletes the key/value entry: running
the flattened `repeat 3 { change counter by 1 }` to completion increments
`counter` by exactly 3 and leaves the counter store with zero entries. -/
theorem repeat_init_check_protocol (σ : Nat → Int) (q : Rat) (sub : List Blk)
    (cont : Int) (st : DecompState) :
    (decomposeControlBlock σ (.repeatN q sub) cont st =
      (σ st.k,
        pushState
          { pc := σ (st.k + 1), bodyBlockIds := [], nextPc := cont,
            repeatCheck := some
              ⟨st.uidK, (decomposeChain σ sub (σ (st.k + 2)) (repeatBodyCtx σ st)).1, cont⟩ }
          (pushState
            { pc := σ st.k, bodyBlockIds := [], nextPc := σ (st.k + 1),
              repeatInit := some ⟨q, st.uidK⟩ }
            (decomposeChain σ sub (σ (st.k + 2)) (repeatBodyCtx σ st)).2)))
    ∧ decomposeChain exampleSupply exampleRepeat 0 ⟨0, 0, [], []⟩ =
        (1, ⟨4, 1, exampleRepeatStates, [(3, 2)]⟩)
    ∧ runThread exampleRepeatStates [(3, 2)] 42 10 10 ⟨1, [("counter", 0)], [], []⟩ =
        ⟨0, [("counter", 3)], [], []⟩ := by
  refine ⟨?_, ?_, by decide⟩
  · simp [decomposeControlBlock, allocPc, freshUid, addRedirect, repeatBodyCtx]
  · simp [decomposeChain, goSegs, decomposeControlBlock, flushLinear, allocPc,
      pushState, addRedirect, freshUid, exampleRepeat, exampleRepeatStates, exampleSupply,
      repeatBodyCtx]

/-- Replacing an item never changes a list's length. -/
theorem length_replaceItem (l : List α) (i : Nat) (v : α) :
    (replaceItem l i v).length = l.length := by
  unfold replaceItem; split <;> simp

/-- `item # of` never exceeds the list length. -/
theorem itemNumOf_le_length [DecidableEq α] (l : List α) (x : α) :
    itemNumOf l x ≤ l.length := by
  induction l with
  | nil => simp [itemNumOf]
  | cons a t ih =>
    rw [itemNumOf]
    split_ifs <;> simp
    omega

/-- `item # of` is at least 1 for a present value. -/
theorem itemNumOf_pos_of_mem [DecidableEq α] {l : List α} {x : α} (h : x ∈ l) :
    1 ≤ itemNumOf l x := by
  induction l with
  | nil => simp at h
  | cons a t ih =>
    rw [itemNumOf]
    split_ifs with h1 h2
    · omega
    · rcases List.mem_cons.mp h with h3 | h3
      · exact absurd h3.symm h1
      · have := ih h3; omega
    · omega

/-- `item # of` is 0 exactly for an absent value. -/
theorem itemNumOf_eq_zero_of_not_mem [DecidableEq α] {l : List α} {x : α} (h : x ∉ l) :
    itemNumOf l x = 0 := by
  induction l with
  | nil => simp [itemNumOf]
  | cons a t ih =>
    rw [itemNumOf]
    have h1 : ¬a = x := fun he => h (he ▸ List.mem_cons_self a t)
    have h2 : x ∉ t := fun ht => h (List.mem_cons_of_mem a ht)
    simp [h1, ih h2]

/-- Deleting at an in-range index removes exactly one entry. -/
theorem length_deleteItem_of_valid (l : List α) (i : Nat) (h1 : 1 ≤ i) (h2 : i ≤ l.length) :
    (deleteItem l i).length = l.length - 1 := by
  unfold deleteItem
  rw [if_neg (by omega)]
  exact List.length_eraseIdx_of_lt (by omega)

/-- Deleting the single entry of a one-entry list empties it. -/
theorem deleteItem_singleton (l : List α) (h : l.length = 1) : deleteItem l 1 = [] := by
  match l, h with
  | [a], _ => rfl

/-- Mid-run updates never touch the token list and never change any length. -/
theorem foldl_midOps_frame (tid : Int) (ops : List MidOp) :
    ∀ r : Registry,
      (ops.foldl (applyMidOp tid) r).pcIds = r.pcIds ∧
      (ops.foldl (applyMidOp tid) r).pcVals.length = r.pcVals.length ∧
      (ops.foldl (applyMidOp tid) r).waitFlags.length = r.waitFlags.length ∧
      (ops.foldl (applyMidOp tid) r).bcastPendingMsg.length = r.bcastPendingMsg.length := by
  induction ops with
  | nil => intro r; simp
  | cons op rest ih =>
    intro r
    have step :
        (applyMidOp tid r op).pcIds = r.pcIds ∧
        (applyMidOp tid r op).pcVals.length = r.pcVals.length ∧
        (applyMidOp tid r op).waitFlags.length = r.waitFlags.length ∧
        (applyMidOp tid r op).bcastPendingMsg.length = r.bcastPendingMsg.length := by
      cases op <;> simp [applyMidOp, length_replaceItem]
    have hrest := ih (applyMidOp tid r op)
    simp only [List.foldl_cons]
    exact ⟨hrest.1.trans step.1,
      hrest.2.1.trans step.2.1,
      hrest.2.2.1.trans step.2.2.1,
      hrest.2.2.2.trans step.2.2.2⟩

/-- One full lifecycle started on an empty registry ends on an empty
registry: the register appends one row, the mid ops preserve it, and the
cleanup deletes it from every parallel list. -/
theorem runLifecycle_from_empty (hasWait : Bool) (run : Int × Int × List MidOp) :
    runLifecycle hasWait emptyRegistry run = emptyRegistry := by
  obtain ⟨tid, entry, ops⟩ := run
  unfold runLifecycle
  dsimp only
  have hreg : registerThread hasWait tid entry emptyRegistry =
      ⟨[tid], [entry], if hasWait then [0] else [], if hasWait then [""] else []⟩ := by
    cases hasWait <;> rfl
  rw [hreg]
  obtain ⟨hids, hvals, hflags, hmsg⟩ :=
    foldl_midOps_frame tid ops ⟨[tid], [entry], if hasWait then [0] else [], if hasWait then [""] else []⟩
  set r2 := ops.foldl (applyMidOp tid) (⟨[tid], [entry], if hasWait then [0] else [], if hasWait then [""] else []⟩ : Registry)
  have hidx : itemNumOf r2.pcIds tid = 1 := by rw [hids]; simp [itemNumOf]
  unfold cleanupThread
  rw [hidx]
  have e1 : deleteItem r2.pcIds 1 = [] := deleteItem_singleton _ (by rw [hids]; rfl)
  have e2 : deleteItem r2.pcVals 1 = [] := deleteItem_singleton _ (by rw [hvals]; rfl)
  cases hasWait with
  | false =>
    simp only [if_neg Bool.false_ne_true] at hflags hmsg ⊢
    simp only [List.length_nil] at hflags hmsg
    have e3 : r2.waitFlags = [] := List.eq_nil_of_length_eq_zero hflags
    have e4 : r2.bcastPendingMsg = [] := List.eq_nil_of_length_eq_zero hmsg
    simp [emptyRegistry, e1, e2, e3, e4]
  | true =>
    simp only [if_pos rfl] at hflags hmsg ⊢
    have e3 : deleteItem r2.waitFlags 1 = [] := deleteItem_singleton _ (by rw [hflags]; rfl)
    have e4 : deleteItem r2.bcastPendingMsg 1 = [] := deleteItem_singleton _ (by rw [hmsg]; rfl)
    simp [emptyRegistry, e1, e2, e3, e4]

/-- C6: the parallel-sequence length invariant at operation boundaries.
Registration appends exactly one entry to each parallel list (the wait lists
only when wait infrastructure exists); every mid-execution update is a
length-preserving replace that never touches the token list; both cleanup
paths delete exactly one entry from each parallel list when the token is
registered (and are a no-op on every list when it is not, preserving the
invariant); and starting then fully completing N threads sequentially from
empty lists leaves every parallel list empty, for any N and any
mid-execution activity. -/
theorem parallel_lists_equal_length (hasWait : Bool) (tid entry : Int) (r : Registry)
    (h : r.eqLen hasWait) :
    ((registerThread hasWait tid entry r).eqLen hasWait ∧
      (registerThread hasWait tid entry r).pcIds.length = r.pcIds.length + 1 ∧
      (registerThread hasWait tid entry r).pcVals.length = r.pcVals.length + 1 ∧
      (hasWait = true →
        (registerThread hasWait tid entry r).waitFlags.length = r.waitFlags.length + 1 ∧
        (registerThread hasWait tid entry r).bcastPendingMsg.length =
          r.bcastPendingMsg.length + 1)) ∧
    (∀ op : MidOp,
      (applyMidOp tid r op).eqLen hasWait ∧ (applyMidOp tid r op).pcIds = r.pcIds ∧
      (applyMidOp tid r op).pcVals.length = r.pcVals.length) ∧
    ((cleanupThread hasWait tid r).eqLen hasWait ∧
      (tid ∈ r.pcIds →
        (cleanupThread hasWait tid r).pcIds.length = r.pcIds.length - 1 ∧
        (cleanupThread hasWait tid r).pcVals.length = r.pcVals.length - 1 ∧
        (hasWait = true →
          (cleanupThread hasWait tid r).waitFlags.length = r.waitFlags.length - 1 ∧
          (cleanupThread hasWait tid r).bcastPendingMsg.length =
            r.bcastPendingMsg.length - 1))) ∧
    (∀ runs : List (Int × Int × List MidOp),
      runLifecycles hasWait runs emptyRegistry = emptyRegistry) := by
  obtain ⟨hv, hw⟩ := h
  refine ⟨?_, ?_, ?_, ?_⟩
  · -- registration
    constructor
    · refine ⟨?_, ?_⟩
      · simp [registerThread, hv]
      · intro hW
        obtain ⟨h1, h2⟩ := hw hW
        simp [registerThread, hW, h1, h2]
    · refine ⟨by simp [registerThread], by simp [registerThread], ?_⟩
      intro hW
      simp [registerThread, hW]
  · -- mid-execution updates
    intro op
    have frame :
        (applyMidOp tid r op).pcIds = r.pcIds ∧
        (applyMidOp tid r op).pcVals.length = r.pcVals.length ∧
        (applyMidOp tid r op).waitFlags.length = r.waitFlags.length ∧
        (applyMidOp tid r op).bcastPendingMsg.length = r.bcastPendingMsg.length := by
      cases op <;> simp [applyMidOp, length_replaceItem]
    refine ⟨⟨?_, ?_⟩, frame.1, frame.2.1⟩
    · rw [frame.2.1, frame.1, hv]
    · intro hW
      obtain ⟨h1, h2⟩ := hw hW
      rw [frame.2.2.1, frame.2.2.2, frame.1, h1, h2]
      exact ⟨rfl, rfl⟩
  · -- cleanup
    by_cases hmem : tid ∈ r.pcIds
    · have hpos : 1 ≤ itemNumOf r.pcIds tid := itemNumOf_pos_of_mem hmem
      have hle : itemNumOf r.pcIds tid ≤ r.pcIds.length := itemNumOf_le_length _ _
      have d1 : (deleteItem r.pcIds (itemNumOf r.pcIds tid)).length = r.pcIds.length - 1 :=
        length_deleteItem_of_valid _ _ hpos hle
      have d2 : (deleteItem r.pcVals (itemNumOf r.pcIds tid)).length = r.pcVals.length - 1 :=
        length_deleteItem_of_valid _ _ hpos (by omega)
      cases hasWait with
      | false =>
        refine ⟨⟨by simp [cleanupThread, d1, d2, hv], by intro hW; cases hW⟩, ?_⟩
        intro _
        exact ⟨by simp [cleanupThread, d1], by simp [cleanupThread, d2],
          by intro hW; cases hW⟩
      | true =>
        obtain ⟨h1, h2⟩ := hw rfl
        have d3 : (deleteItem r.waitFlags (itemNumOf r.pcIds tid)).length =
            r.waitFlags.length - 1 := length_deleteItem_of_valid _ _ hpos (by omega)
        have d4 : (deleteItem r.bcastPendingMsg (itemNumOf r.pcIds tid)).length =
            r.bcastPendingMsg.length - 1 := length_deleteItem_of_valid _ _ hpos (by omega)
        refine ⟨⟨by simp [cleanupThread, d1, d2, hv], ?_⟩, ?_⟩
        · intro _
          simp [cleanupThread, d1, d3, d4]
          omega
        · intro _
          exact ⟨by simp [cleanupThread, d1], by simp [cleanupThread, d2],
            fun _ => ⟨by simp [cleanupThread, d3], by simp [cleanupThread, d4]⟩⟩
    · have hzero : itemNumOf r.pcIds tid = 0 := itemNumOf_eq_zero_of_not_mem hmem
      have hnoop : cleanupThread hasWait tid r = r := by
        unfold cleanupThread
        rw [hzero]
        simp only [deleteItem, if_pos rfl]
        cases hasWait <;> simp
      rw [hnoop]
      exact ⟨⟨hv, hw⟩, fun hm => absurd hm hmem⟩
  · -- N sequential lifecycles
    intro runs
    unfold runLifecycles
    induction runs with
    | nil => rfl
    | cons run rest ih =>
      simp only [List.foldl_cons, runLifecycle_from_empty hasWait run, ih]

/-- C6 witness: two sequential lifecycles on a wait-enabled target leave the
parallel lists empty, via the invariant theorem at a concrete registry. -/
theorem parallel_lists_equal_length_witness :
    runLifecycles true [(5, 9, [MidOp.setPc 11]), (6, 13, [])] emptyRegistry =
      emptyRegistry :=
  (parallel_lists_equal_length true 5 9 emptyRegistry
    (by constructor <;> simp [emptyRegistry])).2.2.2 _

/-- C10: applying CFF rewrites every flattened green-flag hat to a receiver
of the freshly created start broadcast (other hat opcodes are untouched),
and the added cleanup script is a green-flag hat whose chain deletes all
entries of every CFF bookkeeping list of the target and only afterwards —
as its final operation — broadcasts that same start signal. -/
theorem greenflag_cleanup_then_start (hasWait : Bool) :
    (buildGreenFlagCleanup hasWait =
      { hat := .whenFlagClicked,
        chain := (allCFFLists hasWait).map CleanupOp.deleteAllOf ++ [.broadcast .start] })
    ∧ rewriteHatOpcode .whenFlagClicked = .whenBroadcastReceived .start
    ∧ (∀ b, rewriteHatOpcode (.whenBroadcastReceived b) = .whenBroadcastReceived b)
    ∧ rewriteHatOpcode .otherHat = .otherHat := by
  refine ⟨?_, rfl, fun b => rfl, rfl⟩
  cases hasWait <;> rfl

/-- On a strictly PC-sorted state list, querying the BST with the PC of any
state in the list reaches exactly that state's leaf. -/
theorem bstQuery_reaches_leaf :
    ∀ (n : Nat) (l : List CFGState), l.length ≤ n →
      l.Pairwise (fun a b => a.pc < b.pc) →
      ∀ s ∈ l, (bstQuery (buildBSTNode l) s.pc).1 = s := by
  intro n
  induction n with
  | zero =>
    intro l hlen _ s hs
    have hnil : l = [] := List.eq_nil_of_length_eq_zero (by omega)
    subst hnil
    simp at hs
  | succ m ih =>
    intro l hlen hsort s hs
    by_cases h1 : l.length ≤ 1
    · rcases l with _ | ⟨a, _ | ⟨b, t⟩⟩
      · simp at hs
      · have hsa : s = a := by simpa using hs
        subst hsa
        rw [buildBSTNode]
        simp [bstQuery]
      · simp at h1
    · push_neg at h1
      rw [buildBSTNode, dif_neg (by omega)]
      have hk1 : 1 ≤ (l.length + 1) / 2 := by omega
      have hkn : (l.length + 1) / 2 < l.length := by omega
      have hsplit : l.take ((l.length + 1) / 2) ++ l.drop ((l.length + 1) / 2) = l :=
        List.take_append_drop _ l
      have hsort2 :
          (l.take ((l.length + 1) / 2) ++ l.drop ((l.length + 1) / 2)).Pairwise
            (fun a b => a.pc < b.pc) := by
        rw [hsplit]; exact hsort
      obtain ⟨hL, hR, hLR⟩ := List.pairwise_append.mp hsort2
      have hlenL : (l.take ((l.length + 1) / 2)).length = (l.length + 1) / 2 := by
        simp only [List.length_take]; omega
      have hlenR : (l.drop ((l.length + 1) / 2)).length = l.length - (l.length + 1) / 2 := by
        simp only [List.length_drop]
      have hRne : l.drop ((l.length + 1) / 2) ≠ [] := by
        intro hc
        rw [hc] at hlenR
        simp at hlenR
        omega
      have hpmem : (l.drop ((l.length + 1) / 2)).headI ∈ l.drop ((l.length + 1) / 2) := by
        cases hd : l.drop ((l.length + 1) / 2) with
        | nil => exact absurd hd hRne
        | cons r0 rt => simp
      have hs2 : s ∈ l.take ((l.length + 1) / 2) ++ l.drop ((l.length + 1) / 2) := by
        rw [hsplit]; exact hs
      rcases List.mem_append.mp hs2 with hsL | hsR
      · have hlt : s.pc < ((l.drop ((l.length + 1) / 2)).headI).pc := hLR s hsL _ hpmem
        simp only [bstQuery, if_pos hlt]
        exact ih (l.take ((l.length + 1) / 2)) (by omega) hL s hsL
      · obtain ⟨r0, rt, hdrop⟩ : ∃ r0 rt, l.drop ((l.length + 1) / 2) = r0 :: rt := by
          cases hd : l.drop ((l.length + 1) / 2) with
          | nil => exact absurd hd hRne
          | cons r0 rt => exact ⟨r0, rt, rfl⟩
        have hge : ((l.drop ((l.length + 1) / 2)).headI).pc ≤ s.pc := by
          rw [hdrop] at hsR hR ⊢
          simp only [List.headI_cons]
          rcases List.mem_cons.mp hsR with h3 | h3
          · exact le_of_eq (by rw [h3])
          · exact le_of_lt ((List.pairwise_cons.mp hR).1 s h3)
        simp only [bstQuery, if_neg (not_lt.mpr hge)]
        exact ih (l.drop ((l.length + 1) / 2)) (by omega) hR s hsR

/-- On any state list, a BST query performs at most `⌈log₂ n⌉` comparisons:
the left subtree holds exactly `(n + 1) / 2` states, matching the recursion
`clog 2 n = clog 2 ((n + 1) / 2) + 1`, and the right subtree is no larger. -/
theorem bstQuery_within_clog :
    ∀ (n : Nat) (l : List CFGState), l.length ≤ n →
      ∀ q : Int, (bstQuery (buildBSTNode l) q).2 ≤ Nat.clog 2 l.length := by
  intro n
  induction n with
  | zero =>
    intro l hlen q
    have hnil : l = [] := List.eq_nil_of_length_eq_zero (by omega)
    subst hnil
    rw [buildBSTNode]
    simp [bstQuery]
  | succ m ih =>
    intro l hlen q
    by_cases h1 : l.length ≤ 1
    · rw [buildBSTNode, dif_pos h1]
      simp [bstQuery]
    · push_neg at h1
      rw [buildBSTNode, dif_neg (by omega)]
      have hclog : Nat.clog 2 l.length = Nat.clog 2 ((l.length + 1) / 2) + 1 := by
        rw [Nat.clog_of_two_le (by norm_num) (by omega)]
        congr 2
      have hlenL : (l.take ((l.length + 1) / 2)).length = (l.length + 1) / 2 := by
        simp only [List.length_take]; omega
      have hlenR : (l.drop ((l.length + 1) / 2)).length = l.length - (l.length + 1) / 2 := by
        simp only [List.length_drop]
      simp only [bstQuery]
      split_ifs with hq
      · have hrec := ih (l.take ((l.length + 1) / 2)) (by omega) q
        rw [hlenL] at hrec
        rw [hclog]
        omega
      · have hrec := ih (l.drop ((l.length + 1) / 2)) (by omega) q
        rw [hlenR] at hrec
        have hmono : Nat.clog 2 (l.length - (l.length + 1) / 2) ≤
            Nat.clog 2 ((l.length + 1) / 2) :=
          Nat.clog_mono_right 2 (by omega)
        rw [hclog]
        omega

/-- The PC sort is a permutation of the input states. -/
theorem sortByPc_perm (l : List CFGState) : (sortByPc l).Perm l :=
  List.mergeSort_perm l _

/-- The PC sort yields a list sorted by PC. -/
theorem sortByPc_pairwise_le (l : List CFGState) :
    (sortByPc l).Pairwise (fun a b => a.pc ≤ b.pc) := by
  have h := @List.sorted_mergeSort CFGState (fun a b => decide (a.pc ≤ b.pc))
    (fun a b c h1 h2 => by
      simp only [decide_eq_true_eq] at h1 h2 ⊢
      omega)
    (fun a b => by
      simp only [Bool.or_eq_true, decide_eq_true_eq]
      omega)
    l
  exact h.imp (fun hab => by simpa using hab)

/-- With pairwise-distinct PCs (the allocPc guarantee), the sorted state list
is strictly sorted by PC. -/
theorem sortByPc_pairwise_lt (l : List CFGState) (h : (l.map CFGState.pc).Nodup) :
    (sortByPc l).Pairwise (fun a b => a.pc < b.pc) := by
  have hle := sortByPc_pairwise_le l
  have hnd : ((sortByPc l).map CFGState.pc).Nodup :=
    ((sortByPc_perm l).map CFGState.pc).nodup_iff.mpr h
  have hne : (sortByPc l).Pairwise (fun a b => a.pc ≠ b.pc) := by
    simpa [List.Nodup, List.pairwise_map] using hnd
  exact (hle.and hne).imp (fun hab => lt_of_le_of_ne hab.1 hab.2)

/-- C1: for every non-empty state set with pairwise-distinct PCs, the
generated dispatch structure — built by sorting the states by PC and
recursively bisecting with the upper half's minimum PC as the pivot of a
strict less-than comparison — when queried with the PC of any state in the
set (real or dead), reaches exactly that state's leaf, and does so within
`⌈log₂ n⌉` comparisons where `n` is the number of states.  (The tree
contains only strict less-than comparisons by construction: `bstQuery`
performs one `<` test per inner node and nothing else.) -/
theorem dispatch_tree_total (states : List CFGState) (_hne : states ≠ [])
    (hnd : (states.map CFGState.pc).Nodup) :
    ∀ s ∈ states,
      (bstQuery (dispatchTreeOf states) s.pc).1 = s ∧
      (bstQuery (dispatchTreeOf states) s.pc).2 ≤ Nat.clog 2 states.length := by
  intro s hs
  have hperm := sortByPc_perm states
  have hlt := sortByPc_pairwise_lt states hnd
  have hmem : s ∈ sortByPc states := hperm.mem_iff.mpr hs
  have hlen : (sortByPc states).length = states.length := hperm.length_eq
  constructor
  · exact bstQuery_reaches_leaf (sortByPc states).length (sortByPc states) le_rfl hlt s hmem
  · have h := bstQuery_within_clog (sortByPc states).length (sortByPc states) le_rfl s.pc
    rw [hlen] at h
    exact h

/-- C1 witness: in a concrete three-state set (PCs 5, −3, 9), querying the
dispatch tree with PC 5 reaches the PC-5 state's leaf in at most
⌈log₂ 3⌉ = 2 comparisons. -/
theorem dispatch_tree_total_witness :
    (bstQuery (dispatchTreeOf
        [ { pc := 5, bodyBlockIds := [], nextPc := 0 },
          { pc := -3, bodyBlockIds := [], nextPc := 5 },
          { pc := 9, bodyBlockIds := [], nextPc := 0 } ])
      ({ pc := 5, bodyBlockIds := [], nextPc := 0 } : CFGState).pc).1 =
        { pc := 5, bodyBlockIds := [], nextPc := 0 } ∧
    (bstQuery (dispatchTreeOf
        [ { pc := 5, bodyBlockIds := [], nextPc := 0 },
          { pc := -3, bodyBlockIds := [], nextPc := 5 },
          { pc := 9, bodyBlockIds := [], nextPc := 0 } ])
      ({ pc := 5, bodyBlockIds := [], nextPc := 0 } : CFGState).pc).2 ≤
        Nat.clog 2
          ([ { pc := 5, bodyBlockIds := [], nextPc := 0 },
             { pc := -3, bodyBlockIds := [], nextPc := 5 },
             { pc := 9, bodyBlockIds := [], nextPc := 0 } ] : List CFGState).length :=
  dispatch_tree_total _ (by decide) (by decide) _ (by decide)

end Scratchfuscator
